import Mathlib

/-!
Verification of the prefix index (trie) implemented in `src/trie.py`.

The embedding mirrors the Python source: `TrieNode` carries a children
mapping (modelled as an insertion-ordered association list, matching the
semantics of a Python `dict`), a terminal flag `is_end` and a score `freq`
(scores are only stored and compared, never combined arithmetically, so
they are modelled by `ℚ`).  Words are sequences of symbols, modelled as
`List Char`.  The mutable methods of class `Trie` become state-passing
functions; the read-only methods are also given state-passing variants so
that absence of mutation is a stated fact rather than a convention.
-/

/-- Words are finite sequences of symbols, as in the Python source where a
word is a string iterated character by character. -/
abbrev Word := List Char

/-- Node of the trie: children mapping (`char -> TrieNode`, in insertion
order like a Python dict), terminal flag `is_end`, and score `freq`. -/
inductive TrieNode : Type where
  | mk (children : List (Char × TrieNode)) (is_end : Bool) (freq : ℚ)

/-- Children mapping of a node. -/
def TrieNode.children : TrieNode → List (Char × TrieNode)
  | .mk cs _ _ => cs

/-- Terminal flag of a node. -/
def TrieNode.is_end : TrieNode → Bool
  | .mk _ e _ => e

/-- Score stored at a node. -/
def TrieNode.freq : TrieNode → ℚ
  | .mk _ _ f => f

/-- Freshly constructed node, as produced by `TrieNode()` in the source:
no children, not terminal, score `0.0`. -/
def TrieNode.new : TrieNode := .mk [] false 0

@[simp] theorem TrieNode.children_mk (cs : List (Char × TrieNode)) (e : Bool) (f : ℚ) :
    (TrieNode.mk cs e f).children = cs := rfl

@[simp] theorem TrieNode.is_end_mk (cs : List (Char × TrieNode)) (e : Bool) (f : ℚ) :
    (TrieNode.mk cs e f).is_end = e := rfl

@[simp] theorem TrieNode.freq_mk (cs : List (Char × TrieNode)) (e : Bool) (f : ℚ) :
    (TrieNode.mk cs e f).freq = f := rfl

/-- Lookup in the children mapping: `node.children.get(ch)`. -/
def getCh : List (Char × TrieNode) → Char → Option TrieNode
  | [], _ => none
  | (c, n) :: t, a => if c = a then some n else getCh t a

/-- Store in the children mapping: `node.children[ch] = x` (a Python dict
overwrites in place when the key is present, appends otherwise). -/
def setCh : List (Char × TrieNode) → Char → TrieNode → List (Char × TrieNode)
  | [], a, x => [(a, x)]
  | (c, n) :: t, a, x => if c = a then (a, x) :: t else (c, n) :: setCh t a x

/-- Deletion from the children mapping: `del node.children[ch]`. -/
def delCh : List (Char × TrieNode) → Char → List (Char × TrieNode)
  | [], _ => []
  | (c, n) :: t, a => if c = a then t else (c, n) :: delCh t a

/-- State of a `Trie` object: root node plus the two maintained counters
`_count_words` and `_count_nodes` (Python integers, so `ℤ`). -/
structure Trie where
  root : TrieNode
  count_words : Int
  count_nodes : Int

/-- Freshly constructed trie, as produced by `Trie()`: fresh root, zero
words, one node (the root is counted). -/
def Trie.empty : Trie := ⟨TrieNode.new, 0, 1⟩

/-- Embedding of `Trie._walk`: traverse the trie along `text`, returning
the reached node, or `none` if the path breaks.  (The path list that the
source also returns is only consumed by `remove`; the recursive embedding
of `remove` below performs the same back-pruning without materialising
it.) -/
def walk : TrieNode → Word → Option TrieNode
  | n, [] => some n
  | n, c :: cs =>
    match getCh n.children c with
    | none => none
    | some m => walk m cs

/-- Node-level embedding of `Trie.insert`: returns the rebuilt node
together with the number of nodes created and the number of words added
(`0` or `1`), the amounts by which the source increments `_count_nodes`
and `_count_words`. -/
def insertAux : TrieNode → Word → ℚ → TrieNode × Nat × Nat
  | n, [], f =>
    if n.is_end then (.mk n.children n.is_end f, 0, 0)
    else (.mk n.children true f, 0, 1)
  | n, c :: cs, f =>
    match getCh n.children c with
    | some m =>
      let r := insertAux m cs f
      (.mk (setCh n.children c r.1) n.is_end n.freq, r.2.1, r.2.2)
    | none =>
      let r := insertAux TrieNode.new cs f
      (.mk (setCh n.children c r.1) n.is_end n.freq, r.2.1 + 1, r.2.2)

/-- Embedding of `Trie.insert(word, freq)`. -/
def Trie.insert (t : Trie) (w : Word) (f : ℚ) : Trie :=
  let r := insertAux t.root w f
  ⟨r.1, t.count_words + r.2.2, t.count_nodes + r.2.1⟩

/-- Node-level embedding of `Trie.remove`: `none` when the path breaks or
the final node is not terminal (the source returns `False` with no
mutation); otherwise the rebuilt node together with the number of nodes
pruned.  The source prunes backwards along the recorded path, deleting a
node as long as it has become childless and non-terminal and stopping at
the first node still in use; equivalently, each parent on the path deletes
its updated child exactly when that child is childless and non-terminal,
which is the form used here. -/
def removeAux : TrieNode → Word → Option (TrieNode × Nat)
  | n, [] => if n.is_end then some (.mk n.children false 0, 0) else none
  | n, c :: cs =>
    match getCh n.children c with
    | none => none
    | some m =>
      match removeAux m cs with
      | none => none
      | some (m', p) =>
        if m'.children.isEmpty && !m'.is_end then
          some (.mk (delCh n.children c) n.is_end n.freq, p + 1)
        else
          some (.mk (setCh n.children c m') n.is_end n.freq, p)

/-- Embedding of `Trie.remove(word)`: the boolean result and the updated
state.  The pruning loop of the source excludes the root, so the root node
is never deleted, matching `removeAux` which never deletes the node it is
called on. -/
def Trie.remove (t : Trie) (w : Word) : Bool × Trie :=
  match removeAux t.root w with
  | none => (false, t)
  | some (r, p) => (true, ⟨r, t.count_words - 1, t.count_nodes - p⟩)

/-- Embedding of `Trie.contains(word)`. -/
def Trie.contains (t : Trie) (w : Word) : Bool :=
  match walk t.root w with
  | none => false
  | some n => n.is_end

/-- Python comparison of two strings: lexicographic on the symbol
sequences. -/
def wordLt : Word → Word → Bool
  | _, [] => false
  | [], _ :: _ => true
  | a :: as, b :: bs => if a < b then true else if a = b then wordLt as bs else false

/-- Python comparison of two `(freq, word)` tuples: by score first, then
by word. -/
def pairLt (p q : ℚ × Word) : Bool :=
  if p.1 < q.1 then true else if p.1 = q.1 then wordLt p.2 q.2 else false

/-- Minimum of a candidate and a list of candidates under the tuple order,
the element `heapq` would surface at the heap's front. -/
def heapMin : (ℚ × Word) → List (ℚ × Word) → (ℚ × Word)
  | p, [] => p
  | p, q :: t => heapMin (if pairLt q p then q else p) t

/-- One admission step of the bounded selection in `Trie.complete`: with
fewer than `k` candidates held, `heapq.heappush` admits unconditionally;
otherwise `heapq.heappushpop` admits the candidate and discards the
minimum of the enlarged pool (when the pool is empty, that minimum is the
candidate itself, matching `heappushpop` on an empty heap).  Only the
multiset of held candidates is observable, because `complete` fully sorts
the heap list before producing its result; the heap is therefore modelled
by the list of held candidates. -/
def heapStep (k : Int) (heap : List (ℚ × Word)) (p : ℚ × Word) : List (ℚ × Word) :=
  if (heap.length : Int) < k then p :: heap
  else (p :: heap).erase (heapMin p heap)

/-- Comparison used to traverse children in symbol order:
`for c in sorted(node.children)`. -/
def chLe (a b : Char × TrieNode) : Bool := a.1 ≤ b.1

/-- Insertion of an element into a list, in front of the first element
that does not compare below it. -/
def insSorted (le : α → α → Bool) (x : α) : List α → List α
  | [] => [x]
  | y :: t => if le x y then x :: y :: t else y :: insSorted le x t

/-- Insertion sort, used to model the `sorted(...)` and `list.sort(...)`
calls of the source (their keys are distinct wherever they occur, so any
comparison sort yields the same list). -/
def insSort (le : α → α → Bool) : List α → List α
  | [] => []
  | x :: t => insSorted le x (insSort le t)

theorem insSorted_perm (le : α → α → Bool) (x : α) (l : List α) :
    List.Perm (insSorted le x l) (x :: l) := by
  induction l with
  | nil => simp [insSorted]
  | cons y t ih =>
    by_cases h : le x y = true
    · simp [insSorted, h]
    · simp only [insSorted, h, if_false]
      exact List.Perm.trans (List.Perm.cons y ih) (List.Perm.swap x y t)

theorem insSort_perm (le : α → α → Bool) (l : List α) :
    List.Perm (insSort le l) l := by
  induction l with
  | nil => simp [insSort]
  | cons x t ih =>
    exact List.Perm.trans (insSorted_perm le x (insSort le t)) (List.Perm.cons x ih)

theorem sizeOf_insSort [SizeOf α] (le : α → α → Bool) (l : List α) :
    sizeOf (insSort le l) = sizeOf l :=
  List.Perm.sizeOf_eq_sizeOf (insSort_perm le l)

mutual
/-- Embedding of the inner function `explore` of `Trie.complete`: if the
node is terminal, admit `(freq, built)` into the bounded pool, then visit
the children in ascending symbol order, threading the pool through. -/
def explore (k : Int) : TrieNode → Word → List (ℚ × Word) → List (ℚ × Word)
  | n, built, heap =>
    let heap1 := if n.is_end then heapStep k heap (n.freq, built) else heap
    exploreList k (insSort chLe n.children) built heap1
termination_by n _ _ => sizeOf n
decreasing_by
  cases n with
  | mk cs e f => simp [TrieNode.children, sizeOf_insSort]; omega

/-- Traversal of a (sorted) children list by `explore`. -/
def exploreList (k : Int) : List (Char × TrieNode) → Word → List (ℚ × Word) → List (ℚ × Word)
  | [], _, heap => heap
  | (c, m) :: t, built, heap =>
    exploreList k t built (explore k m (built ++ [c]) heap)
termination_by l _ _ => sizeOf l
decreasing_by
  all_goals (simp; try omega)
end

/-- Comparison realising the final `heap.sort(key=lambda x: (-x[0], x[1]))`
of `Trie.complete`: score descending, then word ascending. -/
def rankLe (p q : ℚ × Word) : Bool :=
  if q.1 < p.1 then true else if p.1 = q.1 then !wordLt q.2 p.2 else false

/-- Embedding of `Trie.complete(prefix, k)` (Python's `k` is an `int`,
hence `ℤ`): walk to the prefix node, run the bounded exploration, then
sort by score descending / word ascending and keep the words. -/
def Trie.complete (t : Trie) (pre : Word) (k : Int) : List Word :=
  match walk t.root pre with
  | none => []
  | some start => (insSort rankLe (explore k start pre [])).map Prod.snd

mutual
/-- Embedding of the inner function `height` of `Trie.stats`: `0` for a
childless node, otherwise one more than the maximum height over the
children. -/
def heightN : TrieNode → Nat
  | .mk cs _ _ => if cs.isEmpty then 0 else 1 + maxHeights cs

/-- Maximum of the heights of a list of children (`max(...)` over a
non-empty generator in the source; the base `0` is never the maximum when
the list is non-empty, heights being naturals). -/
def maxHeights : List (Char × TrieNode) → Nat
  | [] => 0
  | (_, m) :: t => Nat.max (heightN m) (maxHeights t)
end

/-- Embedding of `Trie.stats()`: the two maintained counters and the
computed height. -/
def Trie.stats (t : Trie) : Int × Nat × Int :=
  (t.count_words, heightN t.root, t.count_nodes)

mutual
/-- Embedding of the inner function `dfs` of `Trie.items`: emit the pair
for this node when terminal, then visit the children in mapping order,
extending the accumulated path. -/
def itemsN : TrieNode → Word → List (Word × ℚ)
  | .mk cs e f, sofar => (if e then [(sofar, f)] else []) ++ itemsList cs sofar

/-- Traversal of a children list by the `items` depth-first walk. -/
def itemsList : List (Char × TrieNode) → Word → List (Word × ℚ)
  | [], _ => []
  | (c, m) :: t, sofar => itemsN m (sofar ++ [c]) ++ itemsList t sofar
end

/-- Embedding of `Trie.items()`. -/
def Trie.items (t : Trie) : List (Word × ℚ) := itemsN t.root []

/-- State-passing form of `Trie.contains`, recording that the method
leaves the trie untouched. -/
def Trie.containsS (t : Trie) (w : Word) : Bool × Trie := (t.contains w, t)

/-- State-passing form of `Trie.complete`: the method reads the tree and
mutates only its local heap list, leaving the trie untouched. -/
def Trie.completeS (t : Trie) (pre : Word) (k : Int) : List Word × Trie :=
  (t.complete pre k, t)

/-- State-passing form of `Trie.stats`, recording that the method leaves
the trie untouched. -/
def Trie.statsS (t : Trie) : (Int × Nat × Int) × Trie := (t.stats, t)

/-- State-passing form of `Trie.items`, recording that the method leaves
the trie untouched. -/
def Trie.itemsS (t : Trie) : List (Word × ℚ) × Trie := (t.items, t)

/-- States of the index reachable through its public mutating interface,
starting from a freshly constructed `Trie()`. -/
inductive Reachable : Trie → Prop where
  | empty : Reachable Trie.empty
  | insert (t : Trie) (w : Word) (f : ℚ) : Reachable t → Reachable (t.insert w f)
  | remove (t : Trie) (w : Word) : Reachable t → Reachable (t.remove w).2

/-- Observation: a node is in use when it has a child or ends a word; the
source's pruning is meant to keep every non-root node in use. -/
def TrieNode.inUse (n : TrieNode) : Bool := !n.children.isEmpty || n.is_end

mutual
/-- Observation: the list of all nodes reachable from a node (the node
itself included), by direct traversal. -/
def nodesList : TrieNode → List TrieNode
  | .mk cs e f => .mk cs e f :: nodesListL cs

/-- Nodes reachable from any entry of a children list. -/
def nodesListL : List (Char × TrieNode) → List TrieNode
  | [] => []
  | (_, m) :: t => nodesList m ++ nodesListL t
end

mutual
/-- Observation: number of nodes in a subtree. -/
def sizeN : TrieNode → Nat
  | .mk cs _ _ => 1 + sizeL cs

/-- Number of nodes below a children list. -/
def sizeL : List (Char × TrieNode) → Nat
  | [] => 0
  | (_, m) :: t => sizeN m + sizeL t
end

mutual
/-- Observation: number of terminal nodes in a subtree. -/
def termN : TrieNode → Nat
  | .mk cs e _ => (if e then 1 else 0) + termL cs

/-- Number of terminal nodes below a children list. -/
def termL : List (Char × TrieNode) → Nat
  | [] => 0
  | (_, m) :: t => termN m + termL t
end

mutual
/-- Observation: every node of the subtree is in use. -/
def liveN : TrieNode → Bool
  | .mk cs e f => TrieNode.inUse (.mk cs e f) && liveL cs

/-- Every node below a children list is in use. -/
def liveL : List (Char × TrieNode) → Bool
  | [] => true
  | (_, m) :: t => liveN m && liveL t
end

/-- Key membership in a children mapping. -/
def hasKey (l : List (Char × TrieNode)) (a : Char) : Bool := (getCh l a).isSome

/-- The keys of a children list are pairwise distinct, as the keys of a
Python dict always are. -/
def keyNodup : List (Char × TrieNode) → Bool
  | [] => true
  | (c, _) :: t => !hasKey t c && keyNodup t

mutual
/-- Every children list in the subtree has pairwise distinct keys, so the
subtree faithfully represents a tree of Python dicts. -/
def nodupN : TrieNode → Bool
  | .mk cs _ _ => keyNodup cs && nodupL cs

/-- Key distinctness below a children list. -/
def nodupL : List (Char × TrieNode) → Bool
  | [] => true
  | (_, m) :: t => nodupN m && nodupL t
end

/-- Observation: the score stored for a word below a node, `none` when the
word is not stored there. -/
def scoreN (n : TrieNode) (w : Word) : Option ℚ :=
  match walk n w with
  | none => none
  | some m => if m.is_end then some m.freq else none

/-- Observation: the score stored for a word in the index, `none` when the
word is not stored. -/
def Trie.score (t : Trie) (w : Word) : Option ℚ := scoreN t.root w

/-- Maximum word length over a list of `(word, score)` pairs, `0` when the
list is empty. -/
def maxLen (l : List (Word × ℚ)) : Nat :=
  l.foldr (fun p m => Nat.max p.1.length m) 0

/-- Internal consistency of a trie state: children keys are distinct
everywhere, every non-root node is in use, and the two maintained counters
agree with the tree. -/
def TrieInv (t : Trie) : Prop :=
  nodupN t.root = true ∧ liveL t.root.children = true ∧
    t.count_nodes = (sizeN t.root : Int) ∧ t.count_words = (termN t.root : Int)

@[simp] theorem getCh_nil (a : Char) : getCh [] a = none := rfl

theorem getCh_cons (c : Char) (n : TrieNode) (t : List (Char × TrieNode)) (a : Char) :
    getCh ((c, n) :: t) a = if c = a then some n else getCh t a := rfl

theorem getCh_setCh_self (l : List (Char × TrieNode)) (a : Char) (x : TrieNode) :
    getCh (setCh l a x) a = some x := by
  induction l with
  | nil => simp [setCh, getCh]
  | cons p t ih =>
    obtain ⟨c, n⟩ := p
    by_cases h : c = a
    · simp [setCh, h, getCh]
    · simp [setCh, h, getCh, ih]

theorem getCh_setCh_ne (l : List (Char × TrieNode)) (a b : Char) (x : TrieNode)
    (h : b ≠ a) : getCh (setCh l a x) b = getCh l b := by
  induction l with
  | nil => simp [setCh, getCh, Ne.symm h]
  | cons p t ih =>
    obtain ⟨c, n⟩ := p
    by_cases hc : c = a
    · subst hc
      simp [setCh, getCh, Ne.symm h]
    · simp [setCh, hc, getCh, ih]

theorem getCh_delCh_ne (l : List (Char × TrieNode)) (a b : Char)
    (h : b ≠ a) : getCh (delCh l a) b = getCh l b := by
  induction l with
  | nil => simp [delCh]
  | cons p t ih =>
    obtain ⟨c, n⟩ := p
    by_cases hc : c = a
    · subst hc
      simp [delCh, getCh, Ne.symm h]
    · simp [delCh, hc, getCh, ih]

theorem hasKey_delCh (l : List (Char × TrieNode)) (a b : Char)
    (h : hasKey (delCh l a) b = true) : hasKey l b = true := by
  induction l with
  | nil => simpa [delCh] using h
  | cons p t ih =>
    obtain ⟨c, n⟩ := p
    by_cases hb : c = b
    · simp [hasKey, getCh, hb]
    · simp only [hasKey, getCh, if_neg hb]
      by_cases hc : c = a
      · subst hc
        have hdel : delCh ((c, n) :: t) c = t := by simp [delCh]
        rw [hdel] at h
        exact h
      · have hdel : delCh ((c, n) :: t) a = (c, n) :: delCh t a := by simp [delCh, hc]
        rw [hdel] at h
        simp only [hasKey, getCh, if_neg hb] at h
        exact ih h

theorem getCh_delCh_self (l : List (Char × TrieNode)) (a : Char)
    (h : keyNodup l = true) : getCh (delCh l a) a = none := by
  induction l with
  | nil => simp [delCh]
  | cons p t ih =>
    obtain ⟨c, n⟩ := p
    simp only [keyNodup, Bool.and_eq_true, Bool.not_eq_true'] at h
    by_cases hc : c = a
    · subst hc
      have hdel : delCh ((c, n) :: t) c = t := by simp [delCh]
      rw [hdel]
      cases hg : getCh t c with
      | none => rfl
      | some m => simp [hasKey, hg] at h
    · simp [delCh, hc, getCh, ih h.2]

theorem hasKey_setCh_ne (l : List (Char × TrieNode)) (a b : Char) (x : TrieNode)
    (h : b ≠ a) : hasKey (setCh l a x) b = hasKey l b := by
  simp [hasKey, getCh_setCh_ne l a b x h]

theorem keyNodup_setCh (l : List (Char × TrieNode)) (a : Char) (x : TrieNode)
    (h : keyNodup l = true) : keyNodup (setCh l a x) = true := by
  induction l with
  | nil => simp [setCh, keyNodup, hasKey]
  | cons p t ih =>
    obtain ⟨c, n⟩ := p
    simp only [keyNodup, Bool.and_eq_true, Bool.not_eq_true'] at h
    by_cases hc : c = a
    · subst hc
      simp [setCh, keyNodup, h.1, h.2]
    · simp only [setCh, if_neg hc, keyNodup, Bool.and_eq_true, Bool.not_eq_true']
      refine ⟨?_, ih h.2⟩
      rw [hasKey_setCh_ne t a c x hc]
      exact h.1

theorem keyNodup_delCh (l : List (Char × TrieNode)) (a : Char)
    (h : keyNodup l = true) : keyNodup (delCh l a) = true := by
  induction l with
  | nil => simp [delCh, keyNodup]
  | cons p t ih =>
    obtain ⟨c, n⟩ := p
    simp only [keyNodup, Bool.and_eq_true, Bool.not_eq_true'] at h
    by_cases hc : c = a
    · subst hc
      have hdel : delCh ((c, n) :: t) c = t := by simp [delCh]
      rw [hdel]
      exact h.2
    · have hdel : delCh ((c, n) :: t) a = (c, n) :: delCh t a := by simp [delCh, hc]
      rw [hdel]
      simp only [keyNodup, Bool.and_eq_true, Bool.not_eq_true']
      refine ⟨?_, ih h.2⟩
      cases hk : hasKey (delCh t a) c with
      | false => rfl
      | true => rw [hasKey_delCh t a c hk] at h; exact h.1

theorem setCh_ne_nil (l : List (Char × TrieNode)) (a : Char) (x : TrieNode) :
    setCh l a x ≠ [] := by
  cases l with
  | nil => simp [setCh]
  | cons p t =>
    obtain ⟨c, n⟩ := p
    by_cases hc : c = a <;> simp [setCh, hc]

theorem delCh_nil_of (l : List (Char × TrieNode)) (a : Char) (m : TrieNode)
    (hg : getCh l a = some m) (hd : delCh l a = []) : l = [(a, m)] := by
  cases l with
  | nil => simp [getCh] at hg
  | cons p t =>
    obtain ⟨c, n⟩ := p
    by_cases hc : c = a
    · subst hc
      have hdel : delCh ((c, n) :: t) c = t := by simp [delCh]
      rw [hdel] at hd
      subst hd
      have hn : n = m := by simpa [getCh] using hg
      rw [hn]
    · simp [delCh, hc] at hd

theorem sizeL_setCh_some (l : List (Char × TrieNode)) (a : Char) (m x : TrieNode)
    (hg : getCh l a = some m) :
    sizeL (setCh l a x) + sizeN m = sizeL l + sizeN x := by
  induction l with
  | nil => simp [getCh] at hg
  | cons p t ih =>
    obtain ⟨c, n⟩ := p
    by_cases hc : c = a
    · subst hc
      have hm : n = m := by simpa [getCh] using hg
      subst hm
      simp [setCh, sizeL]
      omega
    · simp only [getCh, if_neg hc] at hg
      simp only [setCh, if_neg hc, sizeL]
      have := ih hg
      omega

theorem sizeL_setCh_none (l : List (Char × TrieNode)) (a : Char) (x : TrieNode)
    (hg : getCh l a = none) :
    sizeL (setCh l a x) = sizeL l + sizeN x := by
  induction l with
  | nil => simp [setCh, sizeL]
  | cons p t ih =>
    obtain ⟨c, n⟩ := p
    by_cases hc : c = a
    · simp [getCh, hc] at hg
    · simp only [getCh, if_neg hc] at hg
      simp only [setCh, if_neg hc, sizeL]
      have := ih hg
      omega

theorem sizeL_delCh (l : List (Char × TrieNode)) (a : Char) (m : TrieNode)
    (hg : getCh l a = some m) :
    sizeL (delCh l a) + sizeN m = sizeL l := by
  induction l with
  | nil => simp [getCh] at hg
  | cons p t ih =>
    obtain ⟨c, n⟩ := p
    by_cases hc : c = a
    · subst hc
      have hm : n = m := by simpa [getCh] using hg
      subst hm
      simp [delCh, sizeL]
      omega
    · simp only [getCh, if_neg hc] at hg
      simp only [delCh, if_neg hc, sizeL]
      have := ih hg
      omega

theorem termL_setCh_some (l : List (Char × TrieNode)) (a : Char) (m x : TrieNode)
    (hg : getCh l a = some m) :
    termL (setCh l a x) + termN m = termL l + termN x := by
  induction l with
  | nil => simp [getCh] at hg
  | cons p t ih =>
    obtain ⟨c, n⟩ := p
    by_cases hc : c = a
    · subst hc
      have hm : n = m := by simpa [getCh] using hg
      subst hm
      simp [setCh, termL]
      omega
    · simp only [getCh, if_neg hc] at hg
      simp only [setCh, if_neg hc, termL]
      have := ih hg
      omega

theorem termL_setCh_none (l : List (Char × TrieNode)) (a : Char) (x : TrieNode)
    (hg : getCh l a = none) :
    termL (setCh l a x) = termL l + termN x := by
  induction l with
  | nil => simp [setCh, termL]
  | cons p t ih =>
    obtain ⟨c, n⟩ := p
    by_cases hc : c = a
    · simp [getCh, hc] at hg
    · simp only [getCh, if_neg hc] at hg
      simp only [setCh, if_neg hc, termL]
      have := ih hg
      omega

theorem termL_delCh (l : List (Char × TrieNode)) (a : Char) (m : TrieNode)
    (hg : getCh l a = some m) :
    termL (delCh l a) + termN m = termL l := by
  induction l with
  | nil => simp [getCh] at hg
  | cons p t ih =>
    obtain ⟨c, n⟩ := p
    by_cases hc : c = a
    · subst hc
      have hm : n = m := by simpa [getCh] using hg
      subst hm
      simp [delCh, termL]
      omega
    · simp only [getCh, if_neg hc] at hg
      simp only [delCh, if_neg hc, termL]
      have := ih hg
      omega

theorem nodupL_getCh (l : List (Char × TrieNode)) (a : Char) (m : TrieNode)
    (hg : getCh l a = some m) (h : nodupL l = true) : nodupN m = true := by
  induction l with
  | nil => simp [getCh] at hg
  | cons p t ih =>
    obtain ⟨c, n⟩ := p
    simp only [nodupL, Bool.and_eq_true] at h
    by_cases hc : c = a
    · have hm : n = m := by simpa [getCh, hc] using hg
      subst hm
      exact h.1
    · simp only [getCh, if_neg hc] at hg
      exact ih hg h.2

theorem nodupL_setCh (l : List (Char × TrieNode)) (a : Char) (x : TrieNode)
    (h : nodupL l = true) (hx : nodupN x = true) : nodupL (setCh l a x) = true := by
  induction l with
  | nil => simp [setCh, nodupL, hx]
  | cons p t ih =>
    obtain ⟨c, n⟩ := p
    simp only [nodupL, Bool.and_eq_true] at h
    by_cases hc : c = a
    · subst hc
      simp [setCh, nodupL, hx, h.2]
    · simp only [setCh, if_neg hc, nodupL, Bool.and_eq_true]
      exact ⟨h.1, ih h.2⟩

theorem nodupL_delCh (l : List (Char × TrieNode)) (a : Char)
    (h : nodupL l = true) : nodupL (delCh l a) = true := by
  induction l with
  | nil => simp [delCh, nodupL]
  | cons p t ih =>
    obtain ⟨c, n⟩ := p
    simp only [nodupL, Bool.and_eq_true] at h
    by_cases hc : c = a
    · subst hc
      have hdel : delCh ((c, n) :: t) c = t := by simp [delCh]
      rw [hdel]
      exact h.2
    · simp only [delCh, if_neg hc, nodupL, Bool.and_eq_true]
      exact ⟨h.1, ih h.2⟩

theorem liveL_getCh (l : List (Char × TrieNode)) (a : Char) (m : TrieNode)
    (hg : getCh l a = some m) (h : liveL l = true) : liveN m = true := by
  induction l with
  | nil => simp [getCh] at hg
  | cons p t ih =>
    obtain ⟨c, n⟩ := p
    simp only [liveL, Bool.and_eq_true] at h
    by_cases hc : c = a
    · have hm : n = m := by simpa [getCh, hc] using hg
      subst hm
      exact h.1
    · simp only [getCh, if_neg hc] at hg
      exact ih hg h.2

theorem liveL_setCh (l : List (Char × TrieNode)) (a : Char) (x : TrieNode)
    (h : liveL l = true) (hx : liveN x = true) : liveL (setCh l a x) = true := by
  induction l with
  | nil => simp [setCh, liveL, hx]
  | cons p t ih =>
    obtain ⟨c, n⟩ := p
    simp only [liveL, Bool.and_eq_true] at h
    by_cases hc : c = a
    · subst hc
      simp [setCh, liveL, hx, h.2]
    · simp only [setCh, if_neg hc, liveL, Bool.and_eq_true]
      exact ⟨h.1, ih h.2⟩

theorem liveL_delCh (l : List (Char × TrieNode)) (a : Char)
    (h : liveL l = true) : liveL (delCh l a) = true := by
  induction l with
  | nil => simp [delCh, liveL]
  | cons p t ih =>
    obtain ⟨c, n⟩ := p
    simp only [liveL, Bool.and_eq_true] at h
    by_cases hc : c = a
    · subst hc
      have hdel : delCh ((c, n) :: t) c = t := by simp [delCh]
      rw [hdel]
      exact h.2
    · simp only [delCh, if_neg hc, liveL, Bool.and_eq_true]
      exact ⟨h.1, ih h.2⟩

@[simp] theorem scoreN_nil (n : TrieNode) :
    scoreN n [] = if n.is_end then some n.freq else none := rfl

theorem scoreN_cons (n : TrieNode) (c : Char) (cs : Word) :
    scoreN n (c :: cs) =
      match getCh n.children c with
      | none => none
      | some m => scoreN m cs := by
  cases hg : getCh n.children c <;> simp [scoreN, walk, hg]

@[simp] theorem scoreN_new (v : Word) : scoreN TrieNode.new v = none := by
  cases v with
  | nil => simp [TrieNode.new]
  | cons c cs => simp [scoreN_cons, TrieNode.new, TrieNode.children]

theorem contains_eq_isSome_score (t : Trie) (w : Word) :
    t.contains w = (t.score w).isSome := by
  unfold Trie.contains Trie.score scoreN
  cases walk t.root w with
  | none => rfl
  | some n => cases hn : n.is_end <;> simp [hn]

theorem sizeN_insertAux (w : Word) (n : TrieNode) (f : ℚ) :
    sizeN (insertAux n w f).1 = sizeN n + (insertAux n w f).2.1 := by
  induction w generalizing n with
  | nil =>
    cases n with
    | mk cs e fr => cases e <;> simp [insertAux, sizeN]
  | cons c cs ih =>
    cases n with
    | mk l e fr =>
      cases hg : getCh l c with
      | some m =>
        simp only [insertAux, TrieNode.children, hg, sizeN]
        have h1 := sizeL_setCh_some l c m (insertAux m cs f).1 hg
        have h2 := ih m
        omega
      | none =>
        simp only [insertAux, TrieNode.children, hg, sizeN]
        have h1 := sizeL_setCh_none l c (insertAux TrieNode.new cs f).1 hg
        have h2 := ih TrieNode.new
        have h3 : sizeN TrieNode.new = 1 := rfl
        omega

theorem termN_insertAux (w : Word) (n : TrieNode) (f : ℚ) :
    termN (insertAux n w f).1 = termN n + (insertAux n w f).2.2 := by
  induction w generalizing n with
  | nil =>
    cases n with
    | mk cs e fr => cases e <;> simp [insertAux, termN, Nat.add_comm]
  | cons c cs ih =>
    cases n with
    | mk l e fr =>
      cases hg : getCh l c with
      | some m =>
        simp only [insertAux, TrieNode.children, TrieNode.is_end_mk, hg, termN]
        have h1 := termL_setCh_some l c m (insertAux m cs f).1 hg
        have h2 := ih m
        omega
      | none =>
        simp only [insertAux, TrieNode.children, TrieNode.is_end_mk, hg, termN]
        have h1 := termL_setCh_none l c (insertAux TrieNode.new cs f).1 hg
        have h2 := ih TrieNode.new
        have h3 : termN TrieNode.new = 0 := rfl
        omega

theorem nodupN_insertAux (w : Word) (n : TrieNode) (f : ℚ)
    (h : nodupN n = true) : nodupN (insertAux n w f).1 = true := by
  induction w generalizing n with
  | nil =>
    cases n with
    | mk cs e fr => cases e <;> simpa [insertAux, nodupN] using h
  | cons c cs ih =>
    cases n with
    | mk l e fr =>
      simp only [nodupN, Bool.and_eq_true] at h
      cases hg : getCh l c with
      | some m =>
        simp only [insertAux, TrieNode.children, hg, nodupN, Bool.and_eq_true]
        exact ⟨keyNodup_setCh l c _ h.1,
          nodupL_setCh l c _ h.2 (ih m (nodupL_getCh l c m hg h.2))⟩
      | none =>
        simp only [insertAux, TrieNode.children, hg, nodupN, Bool.and_eq_true]
        exact ⟨keyNodup_setCh l c _ h.1,
          nodupL_setCh l c _ h.2 (ih TrieNode.new rfl)⟩

theorem inUse_insertAux (w : Word) (n : TrieNode) (f : ℚ) :
    TrieNode.inUse (insertAux n w f).1 = true := by
  cases w with
  | nil =>
    cases n with
    | mk cs e fr => cases e <;> simp [insertAux, TrieNode.inUse]
  | cons c cs =>
    cases n with
    | mk l e fr =>
      cases hg : getCh l c with
      | some m =>
        simp [insertAux, TrieNode.children, hg, TrieNode.inUse, setCh_ne_nil]
      | none =>
        simp [insertAux, TrieNode.children, hg, TrieNode.inUse, setCh_ne_nil]

theorem liveL_insertAux (w : Word) (n : TrieNode) (f : ℚ)
    (h : liveL n.children = true) : liveL ((insertAux n w f).1).children = true := by
  induction w generalizing n with
  | nil =>
    cases n with
    | mk cs e fr => cases e <;> simpa [insertAux] using h
  | cons c cs ih =>
    cases n with
    | mk l e fr =>
      simp only [TrieNode.children_mk] at h
      cases hg : getCh l c with
      | some m =>
        simp only [insertAux, TrieNode.children, hg]
        apply liveL_setCh l c _ h
        have hm := liveL_getCh l c m hg h
        have hml : liveL m.children = true := by
          cases m with
          | mk cs2 e2 f2 =>
            simp only [liveN, Bool.and_eq_true] at hm
            simpa using hm.2
        have := ih m hml
        cases hcm : (insertAux m cs f).1 with
        | mk cs3 e3 f3 =>
          simp only [liveN, Bool.and_eq_true]
          constructor
          · have := inUse_insertAux cs m f
            rwa [hcm] at this
          · have h2 := ih m hml
            rw [hcm] at h2
            simpa using h2
      | none =>
        simp only [insertAux, TrieNode.children, hg]
        apply liveL_setCh l c _ h
        cases hcm : (insertAux TrieNode.new cs f).1 with
        | mk cs3 e3 f3 =>
          simp only [liveN, Bool.and_eq_true]
          constructor
          · have := inUse_insertAux cs TrieNode.new f
            rwa [hcm] at this
          · have h2 := ih TrieNode.new rfl
            rw [hcm] at h2
            simpa using h2

theorem scoreN_insertAux (w : Word) (n : TrieNode) (f : ℚ) (v : Word) :
    scoreN (insertAux n w f).1 v = if v = w then some f else scoreN n v := by
  induction w generalizing n v with
  | nil =>
    cases n with
    | mk cs e fr =>
      cases v with
      | nil => cases e <;> simp [insertAux]
      | cons d vs => cases e <;> simp [insertAux, scoreN_cons]
  | cons c cs ih =>
    cases n with
    | mk l e fr =>
      cases hg : getCh l c with
      | some m =>
        simp only [insertAux, TrieNode.children, TrieNode.is_end_mk, TrieNode.freq_mk, hg]
        cases v with
        | nil => simp
        | cons d vs =>
          by_cases hd : d = c
          · subst hd
            simp only [scoreN_cons, TrieNode.children_mk, getCh_setCh_self, hg, ih]
            by_cases hv : vs = cs <;> simp [hv]
          · simp only [scoreN_cons, TrieNode.children_mk,
              getCh_setCh_ne l c d _ hd, hd, List.cons.injEq, false_and, if_false]
      | none =>
        simp only [insertAux, TrieNode.children, TrieNode.is_end_mk, TrieNode.freq_mk, hg]
        cases v with
        | nil => simp
        | cons d vs =>
          by_cases hd : d = c
          · subst hd
            simp only [scoreN_cons, TrieNode.children_mk, getCh_setCh_self, hg, ih,
              scoreN_new]
            by_cases hv : vs = cs <;> simp [hv]
          · simp only [scoreN_cons, TrieNode.children_mk,
              getCh_setCh_ne l c d _ hd, hd, List.cons.injEq, false_and, if_false]

theorem insertAux_counts_of_contains (w : Word) (n : TrieNode) (f : ℚ) (m : TrieNode)
    (hw : walk n w = some m) (he : m.is_end = true) :
    (insertAux n w f).2.1 = 0 ∧ (insertAux n w f).2.2 = 0 := by
  induction w generalizing n with
  | nil =>
    have hm : n = m := by simpa [walk] using hw
    subst hm
    simp [insertAux, he]
  | cons c cs ih =>
    cases n with
    | mk l e fr =>
      cases hg : getCh l c with
      | none => simp [walk, TrieNode.children, hg] at hw
      | some m0 =>
        simp only [walk, TrieNode.children, hg] at hw
        simp only [insertAux, TrieNode.children, hg]
        exact ih m0 hw

theorem removeAux_isSome (w : Word) (n : TrieNode) :
    (removeAux n w).isSome = (scoreN n w).isSome := by
  induction w generalizing n with
  | nil => cases he : n.is_end <;> simp [removeAux, he]
  | cons c cs ih =>
    cases n with
    | mk l e fr =>
      cases hg : getCh l c with
      | none => simp [removeAux, TrieNode.children, hg, scoreN_cons]
      | some m =>
        have hm := ih m
        cases hrm : removeAux m cs with
        | none =>
          rw [hrm] at hm
          simp only [Option.isSome_none] at hm
          simp [removeAux, TrieNode.children, hg, hrm, scoreN_cons, ← hm]
        | some r =>
          obtain ⟨m2, q⟩ := r
          rw [hrm] at hm
          simp only [Option.isSome_some] at hm
          cases m2 with
          | mk cs2 e2 f2 =>
            simp only [removeAux, TrieNode.children_mk, hg, hrm, TrieNode.is_end_mk,
              scoreN_cons, ← hm]
            by_cases hpr : (cs2.isEmpty && !e2) = true
            · rw [if_pos hpr]; simp
            · rw [if_neg hpr]; simp

theorem sizeN_removeAux (w : Word) (n : TrieNode) (m' : TrieNode) (p : Nat)
    (hr : removeAux n w = some (m', p)) : sizeN n = sizeN m' + p := by
  induction w generalizing n m' p with
  | nil =>
    cases n with
    | mk cs e fr =>
      cases e <;> simp only [removeAux, TrieNode.is_end_mk, if_true, if_false,
        reduceCtorEq, Option.some.injEq, Prod.mk.injEq] at hr
      obtain ⟨h1, h2⟩ := hr
      subst h1
      simp [sizeN]
      omega
  | cons c cs ih =>
    cases n with
    | mk l e fr =>
      cases hg : getCh l c with
      | none => simp [removeAux, TrieNode.children, hg] at hr
      | some m =>
        cases hrm : removeAux m cs with
        | none => simp [removeAux, TrieNode.children, hg, hrm] at hr
        | some r =>
          obtain ⟨m2, q⟩ := r
          have hm2 := ih m m2 q hrm
          cases m2 with
          | mk cs2 e2 f2 =>
            simp only [removeAux, TrieNode.children_mk, hg, hrm, TrieNode.is_end_mk] at hr
            by_cases hpr : (cs2.isEmpty && !e2) = true
            · rw [if_pos hpr] at hr
              simp only [Option.some.injEq, Prod.mk.injEq] at hr
              obtain ⟨h1, h2⟩ := hr
              subst h1
              simp only [Bool.and_eq_true, List.isEmpty_iff, Bool.not_eq_true'] at hpr
              have hsz2 : sizeN (TrieNode.mk cs2 e2 f2) = 1 := by
                simp [sizeN, hpr.1, sizeL]
              have hdel := sizeL_delCh l c m hg
              simp only [sizeN, TrieNode.children_mk]
              omega
            · rw [if_neg hpr] at hr
              simp only [Option.some.injEq, Prod.mk.injEq] at hr
              obtain ⟨h1, h2⟩ := hr
              subst h1
              have hset := sizeL_setCh_some l c m (TrieNode.mk cs2 e2 f2) hg
              simp only [sizeN, TrieNode.children_mk]
              omega

theorem termN_removeAux (w : Word) (n : TrieNode) (m' : TrieNode) (p : Nat)
    (hr : removeAux n w = some (m', p)) : termN n = termN m' + 1 := by
  induction w generalizing n m' p with
  | nil =>
    cases n with
    | mk cs e fr =>
      cases e <;> simp only [removeAux, TrieNode.is_end_mk, if_true, if_false,
        reduceCtorEq, Option.some.injEq, Prod.mk.injEq] at hr
      obtain ⟨h1, h2⟩ := hr
      subst h1
      simp [termN]
      omega
  | cons c cs ih =>
    cases n with
    | mk l e fr =>
      cases hg : getCh l c with
      | none => simp [removeAux, TrieNode.children, hg] at hr
      | some m =>
        cases hrm : removeAux m cs with
        | none => simp [removeAux, TrieNode.children, hg, hrm] at hr
        | some r =>
          obtain ⟨m2, q⟩ := r
          have hm2 := ih m m2 q hrm
          cases m2 with
          | mk cs2 e2 f2 =>
            simp only [removeAux, TrieNode.children_mk, hg, hrm, TrieNode.is_end_mk] at hr
            by_cases hpr : (cs2.isEmpty && !e2) = true
            · rw [if_pos hpr] at hr
              simp only [Option.some.injEq, Prod.mk.injEq] at hr
              obtain ⟨h1, h2⟩ := hr
              subst h1
              simp only [Bool.and_eq_true, List.isEmpty_iff, Bool.not_eq_true'] at hpr
              have ht2 : termN (TrieNode.mk cs2 e2 f2) = 0 := by
                simp [termN, hpr.1, hpr.2, termL]
              have hdel := termL_delCh l c m hg
              simp only [termN, TrieNode.children_mk, TrieNode.is_end_mk]
              omega
            · rw [if_neg hpr] at hr
              simp only [Option.some.injEq, Prod.mk.injEq] at hr
              obtain ⟨h1, h2⟩ := hr
              subst h1
              have hset := termL_setCh_some l c m (TrieNode.mk cs2 e2 f2) hg
              simp only [termN, TrieNode.children_mk, TrieNode.is_end_mk]
              omega

theorem nodupN_removeAux (w : Word) (n : TrieNode) (m' : TrieNode) (p : Nat)
    (hr : removeAux n w = some (m', p)) (h : nodupN n = true) : nodupN m' = true := by
  induction w generalizing n m' p with
  | nil =>
    cases n with
    | mk cs e fr =>
      cases e <;> simp only [removeAux, TrieNode.is_end_mk, if_true, if_false,
        reduceCtorEq, Option.some.injEq, Prod.mk.injEq] at hr
      obtain ⟨h1, h2⟩ := hr
      subst h1
      simpa [nodupN] using h
  | cons c cs ih =>
    cases n with
    | mk l e fr =>
      simp only [nodupN, Bool.and_eq_true] at h
      cases hg : getCh l c with
      | none => simp [removeAux, TrieNode.children, hg] at hr
      | some m =>
        cases hrm : removeAux m cs with
        | none => simp [removeAux, TrieNode.children, hg, hrm] at hr
        | some r =>
          obtain ⟨m2, q⟩ := r
          have hm2 := ih m m2 q hrm (nodupL_getCh l c m hg h.2)
          cases m2 with
          | mk cs2 e2 f2 =>
            simp only [removeAux, TrieNode.children_mk, hg, hrm, TrieNode.is_end_mk] at hr
            by_cases hpr : (cs2.isEmpty && !e2) = true
            · rw [if_pos hpr] at hr
              simp only [Option.some.injEq, Prod.mk.injEq] at hr
              obtain ⟨h1, h2⟩ := hr
              subst h1
              simp only [nodupN, Bool.and_eq_true, TrieNode.children_mk]
              exact ⟨keyNodup_delCh l c h.1, nodupL_delCh l c h.2⟩
            · rw [if_neg hpr] at hr
              simp only [Option.some.injEq, Prod.mk.injEq] at hr
              obtain ⟨h1, h2⟩ := hr
              subst h1
              simp only [nodupN, Bool.and_eq_true, TrieNode.children_mk]
              exact ⟨keyNodup_setCh l c _ h.1, nodupL_setCh l c _ h.2 hm2⟩

theorem liveL_removeAux (w : Word) (n : TrieNode) (m' : TrieNode) (p : Nat)
    (hr : removeAux n w = some (m', p)) (h : liveL n.children = true) :
    liveL m'.children = true := by
  induction w generalizing n m' p with
  | nil =>
    cases n with
    | mk cs e fr =>
      cases e <;> simp only [removeAux, TrieNode.is_end_mk, if_true, if_false,
        reduceCtorEq, Option.some.injEq, Prod.mk.injEq] at hr
      obtain ⟨h1, h2⟩ := hr
      subst h1
      simpa using h
  | cons c cs ih =>
    cases n with
    | mk l e fr =>
      simp only [TrieNode.children_mk] at h
      cases hg : getCh l c with
      | none => simp [removeAux, TrieNode.children, hg] at hr
      | some m =>
        cases hrm : removeAux m cs with
        | none => simp [removeAux, TrieNode.children, hg, hrm] at hr
        | some r =>
          obtain ⟨m2, q⟩ := r
          have hmlive : liveN m = true := liveL_getCh l c m hg h
          have hmch : liveL m.children = true := by
            cases m with
            | mk csm em fm =>
              simp only [liveN, Bool.and_eq_true] at hmlive
              simpa using hmlive.2
          have hm2 := ih m m2 q hrm hmch
          cases m2 with
          | mk cs2 e2 f2 =>
            simp only [removeAux, TrieNode.children_mk, hg, hrm, TrieNode.is_end_mk] at hr
            by_cases hpr : (cs2.isEmpty && !e2) = true
            · rw [if_pos hpr] at hr
              simp only [Option.some.injEq, Prod.mk.injEq] at hr
              obtain ⟨h1, h2⟩ := hr
              subst h1
              simpa using liveL_delCh l c h
            · rw [if_neg hpr] at hr
              simp only [Option.some.injEq, Prod.mk.injEq] at hr
              obtain ⟨h1, h2⟩ := hr
              subst h1
              simp only [TrieNode.children_mk]
              apply liveL_setCh l c _ h
              simp only [liveN, Bool.and_eq_true]
              refine ⟨?_, by simpa using hm2⟩
              simp only [Bool.and_eq_true, Bool.not_eq_true'] at hpr
              simp only [TrieNode.inUse, TrieNode.children_mk, TrieNode.is_end_mk,
                Bool.or_eq_true, Bool.not_eq_true']
              cases hemp : cs2.isEmpty with
              | false => left; rfl
              | true =>
                right
                cases he2 : e2 with
                | true => rfl
                | false =>
                  exfalso
                  apply hpr
                  simp [hemp, he2]

theorem scoreN_removeAux_erased (w : Word) (n : TrieNode) (m' : TrieNode) (p : Nat)
    (hr : removeAux n w = some (m', p)) (hch : m'.children = [])
    (hie : m'.is_end = false) : ∀ v, v ≠ w → scoreN n v = none := by
  induction w generalizing n m' p with
  | nil =>
    intro v hv
    cases n with
    | mk cs e fr =>
      cases e <;> simp only [removeAux, TrieNode.is_end_mk, if_true, if_false,
        reduceCtorEq, Option.some.injEq, Prod.mk.injEq] at hr
      obtain ⟨h1, h2⟩ := hr
      subst h1
      simp only [TrieNode.children_mk] at hch
      subst hch
      cases v with
      | nil => exact absurd rfl hv
      | cons d vs => simp [scoreN_cons, TrieNode.children, getCh]
  | cons c cs ih =>
    intro v hv
    cases n with
    | mk l e fr =>
      cases hg : getCh l c with
      | none => simp [removeAux, TrieNode.children, hg] at hr
      | some m =>
        cases hrm : removeAux m cs with
        | none => simp [removeAux, TrieNode.children, hg, hrm] at hr
        | some r =>
          obtain ⟨m2, q⟩ := r
          cases m2 with
          | mk cs2 e2 f2 =>
            simp only [removeAux, TrieNode.children_mk, hg, hrm, TrieNode.is_end_mk] at hr
            by_cases hpr : (cs2.isEmpty && !e2) = true
            · rw [if_pos hpr] at hr
              simp only [Option.some.injEq, Prod.mk.injEq] at hr
              obtain ⟨h1, h2⟩ := hr
              subst h1
              simp only [TrieNode.children_mk] at hch
              simp only [TrieNode.is_end_mk] at hie
              subst hie
              have hl : l = [(c, m)] := delCh_nil_of l c m hg hch
              subst hl
              simp only [Bool.and_eq_true, List.isEmpty_iff, Bool.not_eq_true'] at hpr
              cases v with
              | nil => simp
              | cons d vs =>
                by_cases hd : d = c
                · subst hd
                  have hvs : vs ≠ cs := by
                    intro hh
                    exact hv (by rw [hh])
                  simp only [scoreN_cons, TrieNode.children_mk, getCh, if_pos rfl]
                  exact ih m (TrieNode.mk cs2 e2 f2) q hrm (by simpa using hpr.1)
                    (by simpa using hpr.2) vs hvs
                · simp [scoreN_cons, TrieNode.children, getCh, Ne.symm hd]
            · rw [if_neg hpr] at hr
              simp only [Option.some.injEq, Prod.mk.injEq] at hr
              obtain ⟨h1, h2⟩ := hr
              subst h1
              simp only [TrieNode.children_mk] at hch
              exact absurd hch (setCh_ne_nil l c _)

theorem scoreN_removeAux (w : Word) (n : TrieNode) (m' : TrieNode) (p : Nat)
    (hn : nodupN n = true) (hr : removeAux n w = some (m', p)) :
    ∀ v, scoreN m' v = if v = w then none else scoreN n v := by
  induction w generalizing n m' p with
  | nil =>
    intro v
    cases n with
    | mk cs e fr =>
      cases e <;> simp only [removeAux, TrieNode.is_end_mk, if_true, if_false,
        reduceCtorEq, Option.some.injEq, Prod.mk.injEq] at hr
      obtain ⟨h1, h2⟩ := hr
      subst h1
      cases v with
      | nil => simp
      | cons d vs => simp [scoreN_cons, TrieNode.children]
  | cons c cs ih =>
    intro v
    cases n with
    | mk l e fr =>
      simp only [nodupN, Bool.and_eq_true] at hn
      cases hg : getCh l c with
      | none => simp [removeAux, TrieNode.children, hg] at hr
      | some m =>
        cases hrm : removeAux m cs with
        | none => simp [removeAux, TrieNode.children, hg, hrm] at hr
        | some r =>
          obtain ⟨m2, q⟩ := r
          cases m2 with
          | mk cs2 e2 f2 =>
            simp only [removeAux, TrieNode.children_mk, hg, hrm, TrieNode.is_end_mk] at hr
            by_cases hpr : (cs2.isEmpty && !e2) = true
            · rw [if_pos hpr] at hr
              simp only [Option.some.injEq, Prod.mk.injEq] at hr
              obtain ⟨h1, h2⟩ := hr
              subst h1
              simp only [Bool.and_eq_true, List.isEmpty_iff, Bool.not_eq_true'] at hpr
              cases v with
              | nil => simp
              | cons d vs =>
                by_cases hd : d = c
                · subst hd
                  simp only [scoreN_cons, TrieNode.children_mk,
                    getCh_delCh_self l d hn.1, List.cons.injEq, true_and]
                  by_cases hvs : vs = cs
                  · simp [hvs]
                  · rw [if_neg hvs]
                    simp only [hg]
                    exact (scoreN_removeAux_erased cs m (TrieNode.mk cs2 e2 f2) q hrm
                      (by simpa using hpr.1) (by simpa using hpr.2) vs hvs).symm
                · simp only [scoreN_cons, TrieNode.children_mk,
                    getCh_delCh_ne l c d hd, List.cons.injEq, hd, false_and, if_false]
            · rw [if_neg hpr] at hr
              simp only [Option.some.injEq, Prod.mk.injEq] at hr
              obtain ⟨h1, h2⟩ := hr
              subst h1
              cases v with
              | nil => simp
              | cons d vs =>
                by_cases hd : d = c
                · subst hd
                  simp only [scoreN_cons, TrieNode.children_mk, getCh_setCh_self, hg,
                    List.cons.injEq, true_and]
                  have := ih m (TrieNode.mk cs2 e2 f2) q (nodupL_getCh l d m hg hn.2) hrm vs
                  rw [this]
                · simp only [scoreN_cons, TrieNode.children_mk,
                    getCh_setCh_ne l c d _ hd, List.cons.injEq, hd, false_and, if_false]

theorem remove_fst (t : Trie) (w : Word) :
    (t.remove w).1 = (removeAux t.root w).isSome := by
  unfold Trie.remove
  cases removeAux t.root w with
  | none => rfl
  | some r => obtain ⟨m, p⟩ := r; rfl

theorem contains_walk (t : Trie) (w : Word) (h : t.contains w = true) :
    ∃ m, walk t.root w = some m ∧ m.is_end = true := by
  unfold Trie.contains at h
  cases hw : walk t.root w with
  | none => rw [hw] at h; exact absurd h (by simp)
  | some m => rw [hw] at h; exact ⟨m, rfl, h⟩

theorem trieInv_empty : TrieInv Trie.empty := by
  refine ⟨rfl, rfl, ?_, ?_⟩ <;> rfl

theorem trieInv_insert (t : Trie) (w : Word) (f : ℚ) (h : TrieInv t) :
    TrieInv (t.insert w f) := by
  obtain ⟨hnd, hlv, hnc, hwc⟩ := h
  have hroot : (t.insert w f).root = (insertAux t.root w f).1 := rfl
  have hcn : (t.insert w f).count_nodes = t.count_nodes + ((insertAux t.root w f).2.1 : Int) := rfl
  have hcw : (t.insert w f).count_words = t.count_words + ((insertAux t.root w f).2.2 : Int) := rfl
  refine ⟨?_, ?_, ?_, ?_⟩
  · rw [hroot]; exact nodupN_insertAux w t.root f hnd
  · rw [hroot]; exact liveL_insertAux w t.root f hlv
  · rw [hcn, hroot, hnc]
    have := sizeN_insertAux w t.root f
    omega
  · rw [hcw, hroot, hwc]
    have := termN_insertAux w t.root f
    omega

theorem trieInv_remove (t : Trie) (w : Word) (h : TrieInv t) :
    TrieInv (t.remove w).2 := by
  obtain ⟨hnd, hlv, hnc, hwc⟩ := h
  cases hr : removeAux t.root w with
  | none =>
    have ht : (t.remove w).2 = t := by simp [Trie.remove, hr]
    rw [ht]
    exact ⟨hnd, hlv, hnc, hwc⟩
  | some r =>
    obtain ⟨m, p⟩ := r
    have ht : (t.remove w).2 = ⟨m, t.count_words - 1, t.count_nodes - (p : Int)⟩ := by
      simp [Trie.remove, hr]
    rw [ht]
    refine ⟨nodupN_removeAux w t.root m p hr hnd, liveL_removeAux w t.root m p hr hlv,
      ?_, ?_⟩
    · show t.count_nodes - (p : Int) = (sizeN m : Int)
      rw [hnc]
      have := sizeN_removeAux w t.root m p hr
      omega
    · show t.count_words - 1 = (termN m : Int)
      rw [hwc]
      have := termN_removeAux w t.root m p hr
      omega

theorem reachable_trieInv (t : Trie) (h : Reachable t) : TrieInv t := by
  induction h with
  | empty => exact trieInv_empty
  | insert t0 w f _ ih => exact trieInv_insert t0 w f ih
  | remove t0 w _ ih => exact trieInv_remove t0 w ih

theorem heapStep_nil_nonpos (k : Int) (hk : k ≤ 0) (p : ℚ × Word) :
    heapStep k [] p = [] := by
  have hnk : ¬ ((([] : List (ℚ × Word)).length : Int) < k) := by simp; omega
  simp only [heapStep]
  rw [if_neg hnk]
  simp [heapMin, List.erase]

mutual
theorem explore_nonpos (k : Int) (hk : k ≤ 0) (n : TrieNode) (built : Word) :
    explore k n built [] = [] := by
  rw [explore]
  have h1 : (if n.is_end = true then heapStep k [] (n.freq, built) else []) = [] := by
    cases n.is_end <;> simp [heapStep_nil_nonpos k hk]
  rw [h1]
  exact exploreList_nonpos k hk (insSort chLe n.children) built
termination_by sizeOf n
decreasing_by
  cases n with
  | mk cs e f => simp [TrieNode.children, sizeOf_insSort]; omega

theorem exploreList_nonpos (k : Int) (hk : k ≤ 0) (l : List (Char × TrieNode))
    (built : Word) : exploreList k l built [] = [] := by
  cases l with
  | nil => rw [exploreList]
  | cons p t =>
    obtain ⟨c, m⟩ := p
    rw [exploreList, explore_nonpos k hk m (built ++ [c])]
    exact exploreList_nonpos k hk t built
termination_by sizeOf l
decreasing_by
  all_goals (simp; try omega)
end

theorem complete_nonpos (t : Trie) (pre : Word) (k : Int) (hk : k ≤ 0) :
    t.complete pre k = [] := by
  unfold Trie.complete
  cases walk t.root pre with
  | none => rfl
  | some start =>
    show List.map Prod.snd (insSort rankLe (explore k start pre [])) = []
    rw [explore_nonpos k hk start pre]
    rfl

theorem complete_missing_path (t : Trie) (pre : Word) (k : Int)
    (hw : walk t.root pre = none) : t.complete pre k = [] := by
  unfold Trie.complete
  rw [hw]

mutual
theorem liveN_nodesList : ∀ n : TrieNode, liveN n = true →
    ∀ m ∈ nodesList n, TrieNode.inUse m = true
  | .mk cs e f => by
    intro h m hm
    simp only [liveN, Bool.and_eq_true] at h
    simp only [nodesList, List.mem_cons] at hm
    cases hm with
    | inl hh => rw [hh]; exact h.1
    | inr hh => exact liveL_nodesListL cs h.2 m hh

theorem liveL_nodesListL : ∀ cs : List (Char × TrieNode), liveL cs = true →
    ∀ m ∈ nodesListL cs, TrieNode.inUse m = true
  | [] => by intro h m hm; simp [nodesListL] at hm
  | (c, n) :: t => by
    intro h m hm
    simp only [liveL, Bool.and_eq_true] at h
    simp only [nodesListL, List.mem_append] at hm
    cases hm with
    | inl hh => exact liveN_nodesList n h.1 m hh
    | inr hh => exact liveL_nodesListL t h.2 m hh
end

mutual
theorem sizeN_nodesList : ∀ n : TrieNode, sizeN n = (nodesList n).length
  | .mk cs e f => by
    simp only [sizeN, nodesList, List.length_cons, sizeL_nodesListL cs]
    omega

theorem sizeL_nodesListL : ∀ cs : List (Char × TrieNode),
    sizeL cs = (nodesListL cs).length
  | [] => by simp [sizeL, nodesListL]
  | (c, n) :: t => by
    simp only [sizeL, nodesListL, List.length_append, sizeN_nodesList n,
      sizeL_nodesListL t]
end

mutual
theorem termN_nodesList : ∀ n : TrieNode,
    termN n = ((nodesList n).filter (fun m => m.is_end)).length
  | .mk cs e f => by
    simp only [termN, nodesList, termL_nodesListL cs, List.filter]
    cases e <;> simp [TrieNode.is_end, Nat.add_comm]

theorem termL_nodesListL : ∀ cs : List (Char × TrieNode),
    termL cs = ((nodesListL cs).filter (fun m => m.is_end)).length
  | [] => by simp [termL, nodesListL]
  | (c, n) :: t => by
    simp only [termL, nodesListL, List.filter_append, List.length_append,
      termN_nodesList n, termL_nodesListL t]
end

mutual
theorem itemsN_shift : ∀ (n : TrieNode) (pre : Word),
    itemsN n pre = (itemsN n []).map (fun p => (pre ++ p.1, p.2))
  | .mk cs e f, pre => by
    simp only [itemsN, List.map_append]
    rw [itemsList_shift cs pre]
    cases e <;> simp

theorem itemsList_shift : ∀ (cs : List (Char × TrieNode)) (pre : Word),
    itemsList cs pre = (itemsList cs []).map (fun p => (pre ++ p.1, p.2))
  | [], pre => by simp [itemsList]
  | (c, m) :: t, pre => by
    simp only [itemsList, List.map_append, List.nil_append]
    rw [itemsN_shift m (pre ++ [c]), itemsN_shift m [c], itemsList_shift t pre]
    simp [List.map_map, Function.comp, List.append_assoc]
end

mutual
theorem itemsN_length : ∀ (n : TrieNode) (pre : Word),
    (itemsN n pre).length = termN n
  | .mk cs e f, pre => by
    simp only [itemsN, List.length_append, itemsList_length cs pre, termN]
    cases e <;> simp [Nat.add_comm]

theorem itemsList_length : ∀ (cs : List (Char × TrieNode)) (pre : Word),
    (itemsList cs pre).length = termL cs
  | [], pre => by simp [itemsList, termL]
  | (c, m) :: t, pre => by
    simp only [itemsList, List.length_append, itemsN_length m (pre ++ [c]),
      itemsList_length t pre, termL]
end

mutual
theorem liveN_items_ne_nil : ∀ (n : TrieNode) (pre : Word), liveN n = true →
    itemsN n pre ≠ []
  | .mk cs e f, pre => by
    intro h
    simp only [liveN, Bool.and_eq_true] at h
    simp only [itemsN]
    cases he : e with
    | true =>
      intro hh
      rw [if_pos rfl] at hh
      simp at hh
    | false =>
      have hif : (if (false = true) then [(pre, f)] else ([] : List (Word × ℚ))) = [] := rfl
      rw [hif, List.nil_append]
      apply liveL_items_ne_nil cs pre h.2
      intro hcs
      subst hcs
      subst he
      simp [TrieNode.inUse] at h

theorem liveL_items_ne_nil : ∀ (cs : List (Char × TrieNode)) (pre : Word),
    liveL cs = true → cs ≠ [] → itemsList cs pre ≠ []
  | [], pre => by intro _ hne; exact absurd rfl hne
  | (c, m) :: t, pre => by
    intro h _
    simp only [liveL, Bool.and_eq_true] at h
    simp only [itemsList]
    intro happ
    rcases List.append_eq_nil.mp happ with ⟨h1, h2⟩
    exact liveN_items_ne_nil m (pre ++ [c]) h.1 h1
end

theorem maxLen_append (a b : List (Word × ℚ)) :
    maxLen (a ++ b) = Nat.max (maxLen a) (maxLen b) := by
  induction a with
  | nil => simp [maxLen]
  | cons p t ih =>
    simp only [List.cons_append, maxLen, List.foldr_cons] at *
    rw [ih]
    exact (Nat.max_assoc _ _ _).symm

theorem maxLen_map_cons (c : Char) (l : List (Word × ℚ)) (hne : l ≠ []) :
    maxLen (l.map (fun p => (c :: p.1, p.2))) = 1 + maxLen l := by
  induction l with
  | nil => exact absurd rfl hne
  | cons p t ih =>
    cases t with
    | nil => simp [maxLen]; omega
    | cons q r =>
      simp only [List.map_cons, maxLen, List.foldr_cons, List.length_cons] at *
      rw [ih (by simp)]
      have hmax : ∀ A B : Nat, Nat.max (A + 1) (1 + B) = 1 + Nat.max A B := by
        intro A B
        rw [Nat.add_comm 1 B, Nat.add_comm 1 (Nat.max A B)]
        exact Nat.succ_max_succ A B
      exact hmax _ _

theorem one_add_max (A B : Nat) : Nat.max (1 + A) (1 + B) = 1 + Nat.max A B := by
  rw [Nat.add_comm 1 A, Nat.add_comm 1 B, Nat.add_comm 1 (Nat.max A B)]
  exact Nat.succ_max_succ A B

theorem liveN_children_live (n : TrieNode) (h : liveN n = true) :
    liveL n.children = true := by
  cases n with
  | mk cs e f =>
    simp only [liveN, Bool.and_eq_true] at h
    simpa using h.2

mutual
theorem heightN_items : ∀ (n : TrieNode), liveL n.children = true →
    heightN n = maxLen (itemsN n [])
  | .mk cs e f => by
    intro h
    simp only [TrieNode.children_mk] at h
    simp only [heightN, itemsN]
    cases cs with
    | nil => cases e <;> simp [maxLen, itemsList]
    | cons q t =>
      rw [maxLen_append]
      have hown : maxLen (if e = true then [(([] : Word), f)] else []) = 0 := by
        cases e <;> simp [maxLen]
      rw [hown]
      have hlist := heightsL_items (q :: t) h (by simp)
      simp only [List.isEmpty_cons, if_false]
      rw [hlist]
      exact (Nat.zero_max _).symm

theorem heightsL_items : ∀ (cs : List (Char × TrieNode)), liveL cs = true → cs ≠ [] →
    1 + maxHeights cs = maxLen (itemsList cs [])
  | [] => by intro _ h; exact absurd rfl h
  | (c, m) :: t => by
    intro h _
    simp only [liveL, Bool.and_eq_true] at h
    simp only [maxHeights, itemsList, List.nil_append]
    rw [maxLen_append]
    have hshift : itemsN m [c] = (itemsN m []).map (fun p => (c :: p.1, p.2)) := by
      rw [itemsN_shift m [c]]
      simp
    rw [hshift, maxLen_map_cons c _ (liveN_items_ne_nil m [] h.1)]
    have hm := heightN_items m (liveN_children_live m h.1)
    cases t with
    | nil =>
      simp only [maxHeights, itemsList, maxLen, List.foldr_nil, Nat.max_zero]
      rw [hm]
      rfl
    | cons q r =>
      have hrec := heightsL_items (q :: r) h.2 (by simp)
      rw [← hrec, ← hm, one_add_max]
end

mutual
theorem itemsN_shape : ∀ (n : TrieNode) (pre : Word) (p : Word × ℚ),
    p ∈ itemsN n pre →
      p.1 = pre ∨ ∃ d s, p.1 = pre ++ d :: s ∧ hasKey n.children d = true
  | .mk cs e f, pre, p => by
    intro hp
    simp only [itemsN, List.mem_append] at hp
    rcases hp with hp | hp
    · left
      cases e with
      | true =>
        simp at hp
        rw [hp]
      | false => simp at hp
    · right
      obtain ⟨d, s, hds, hk⟩ := itemsList_shape cs pre p hp
      exact ⟨d, s, hds, by simpa using hk⟩

theorem itemsList_shape : ∀ (cs : List (Char × TrieNode)) (pre : Word) (p : Word × ℚ),
    p ∈ itemsList cs pre → ∃ d s, p.1 = pre ++ d :: s ∧ hasKey cs d = true
  | [], pre, p => by intro hp; simp [itemsList] at hp
  | (c, m) :: t, pre, p => by
    intro hp
    simp only [itemsList, List.mem_append] at hp
    rcases hp with hp | hp
    · rcases itemsN_shape m (pre ++ [c]) p hp with h1 | hrest
      · exact ⟨c, [], by simpa using h1, by simp [hasKey, getCh]⟩
      · obtain ⟨d, s, hds, hk⟩ := hrest
        refine ⟨c, d :: s, ?_, by simp [hasKey, getCh]⟩
        rw [hds]
        simp
    · obtain ⟨d, s, hds, hk⟩ := itemsList_shape t pre p hp
      refine ⟨d, s, hds, ?_⟩
      simp only [hasKey, getCh]
      by_cases hcd : c = d
      · simp [hcd]
      · simp only [if_neg hcd]
        exact hk
end

theorem itemsList_sub (cs : List (Char × TrieNode)) (c : Char) (m : TrieNode)
    (pre : Word) (hg : getCh cs c = some m) :
    ∀ p ∈ itemsN m (pre ++ [c]), p ∈ itemsList cs pre := by
  induction cs with
  | nil => simp [getCh] at hg
  | cons q t ih =>
    obtain ⟨c0, m0⟩ := q
    intro p hp
    by_cases hc0 : c0 = c
    · subst hc0
      have hm : m0 = m := by simpa [getCh] using hg
      subst hm
      simp only [itemsList, List.mem_append]
      exact Or.inl hp
    · simp only [getCh, if_neg hc0] at hg
      simp only [itemsList, List.mem_append]
      exact Or.inr (ih hg p hp)

theorem scoreN_mem : ∀ (w : Word) (n : TrieNode) (pre : Word) (f : ℚ),
    scoreN n w = some f → (pre ++ w, f) ∈ itemsN n pre := by
  intro w
  induction w with
  | nil =>
    intro n pre f hs
    cases n with
    | mk cs e fr =>
      cases e with
      | false => simp at hs
      | true =>
        have hf : fr = f := by simpa using hs
        subst hf
        simp [itemsN]
  | cons c vs ih =>
    intro n pre f hs
    cases n with
    | mk cs e fr =>
      rw [scoreN_cons] at hs
      simp only [TrieNode.children_mk] at hs
      cases hg : getCh cs c with
      | none => rw [hg] at hs; simp at hs
      | some m =>
        rw [hg] at hs
        have hmem := ih m (pre ++ [c]) f hs
        have hEq : pre ++ c :: vs = (pre ++ [c]) ++ vs := by simp
        rw [hEq]
        simp only [itemsN, List.mem_append]
        exact Or.inr (itemsList_sub cs c m pre hg _ hmem)

theorem countP_itemsN : ∀ (w : Word) (n : TrieNode) (pre : Word), nodupN n = true →
    (itemsN n pre).countP (fun p => decide (p.1 = pre ++ w)) =
      if (scoreN n w).isSome then 1 else 0 := by
  intro w
  induction w with
  | nil =>
    intro n pre hnd
    cases n with
    | mk cs e f =>
      simp only [itemsN, List.countP_append]
      have hch : (itemsList cs pre).countP (fun p => decide (p.1 = pre ++ [])) = 0 := by
        apply List.countP_eq_zero.mpr
        intro p hp
        obtain ⟨d, s, hds, _⟩ := itemsList_shape cs pre p hp
        simp [hds]
      rw [hch]
      cases e with
      | true => simp
      | false => simp
  | cons c vs ih =>
    intro n pre hnd
    cases n with
    | mk cs e f =>
      simp only [nodupN, Bool.and_eq_true] at hnd
      simp only [itemsN, List.countP_append]
      have hown : (if e = true then [(pre, f)] else
          ([] : List (Word × ℚ))).countP (fun p => decide (p.1 = pre ++ c :: vs)) = 0 := by
        cases e with
        | true => simp
        | false => simp
      rw [hown, scoreN_cons]
      simp only [TrieNode.children_mk]
      have hchild : ∀ (cs2 : List (Char × TrieNode)), keyNodup cs2 = true →
          nodupL cs2 = true →
          (itemsList cs2 pre).countP (fun p => decide (p.1 = pre ++ c :: vs)) =
            if (match getCh cs2 c with
                | none => none
                | some m => scoreN m vs).isSome then 1 else 0 := by
        intro cs2
        induction cs2 with
        | nil => intro _ _; simp [itemsList, getCh]
        | cons q t iht =>
          intro hk hn
          obtain ⟨c0, m0⟩ := q
          simp only [keyNodup, Bool.and_eq_true, Bool.not_eq_true'] at hk
          simp only [nodupL, Bool.and_eq_true] at hn
          simp only [itemsList, List.countP_append]
          by_cases hc0 : c0 = c
          · subst hc0
            have hEq : pre ++ c0 :: vs = (pre ++ [c0]) ++ vs := by simp
            have h1 : (itemsN m0 (pre ++ [c0])).countP
                (fun p => decide (p.1 = pre ++ c0 :: vs)) =
                  if (scoreN m0 vs).isSome then 1 else 0 := by
              simp only [hEq]
              exact ih m0 (pre ++ [c0]) hn.1
            have h2 : (itemsList t pre).countP
                (fun p => decide (p.1 = pre ++ c0 :: vs)) = 0 := by
              apply List.countP_eq_zero.mpr
              intro p hp
              obtain ⟨d, s, hds, hkd⟩ := itemsList_shape t pre p hp
              simp only [hds, decide_eq_true_eq]
              intro hcontra
              have hds2 : d :: s = c0 :: vs := (List.append_right_inj pre).mp hcontra
              have hd : d = c0 := by
                injection hds2 with hh _
              rw [hd] at hkd
              rw [hkd] at hk
              exact absurd hk.1 (by simp)
            rw [h1, h2]
            simp [getCh]
          · have h1 : (itemsN m0 (pre ++ [c0])).countP
                (fun p => decide (p.1 = pre ++ c :: vs)) = 0 := by
              apply List.countP_eq_zero.mpr
              intro p hp
              rcases itemsN_shape m0 (pre ++ [c0]) p hp with hh | hh
              · simp only [hh, decide_eq_true_eq]
                intro hcontra
                have : (c0 :: []) = c :: vs := by
                  apply (List.append_right_inj pre).mp
                  simpa using hcontra
                injection this with hh2 _
                exact hc0 hh2
              · obtain ⟨d, s, hds, _⟩ := hh
                simp only [hds, decide_eq_true_eq]
                intro hcontra
                have : (c0 :: d :: s) = c :: vs := by
                  apply (List.append_right_inj pre).mp
                  simpa using hcontra
                injection this with hh2 _
                exact hc0 hh2
            rw [h1]
            have := iht hk.2 hn.2
            rw [this]
            simp [getCh, hc0]
      rw [hchild cs hnd.1 hnd.2]
      simp

/-- C3: for every index reachable from the empty index by insert and remove
operations, no node reachable from the root other than the root itself has
an empty children mapping together with a cleared terminal flag, the
`node_count` counter equals the number of nodes reachable from the root,
and the `word_count` counter equals the number of reachable terminal
nodes. -/
theorem reachable_pruning_and_counters (t : Trie) (h : Reachable t) :
    (∀ m ∈ nodesListL t.root.children, TrieNode.inUse m = true) ∧
    t.count_nodes = ((nodesList t.root).length : Int) ∧
    t.count_words = (((nodesList t.root).filter (fun m => m.is_end)).length : Int) := by
  obtain ⟨hnd, hlv, hnc, hwc⟩ := reachable_trieInv t h
  refine ⟨liveL_nodesListL t.root.children hlv, ?_, ?_⟩
  · rw [hnc, sizeN_nodesList]
  · rw [hwc, termN_nodesList]

/-- Witness for C3 at a concrete reachable state. -/
theorem reachable_pruning_and_counters_witness :
    (∀ m ∈ nodesListL ((Trie.empty.insert ['a', 'b'] 2).remove ['a', 'b']).2.root.children,
      TrieNode.inUse m = true) ∧
    ((Trie.empty.insert ['a', 'b'] 2).remove ['a', 'b']).2.count_nodes =
      ((nodesList ((Trie.empty.insert ['a', 'b'] 2).remove ['a', 'b']).2.root).length : Int) ∧
    ((Trie.empty.insert ['a', 'b'] 2).remove ['a', 'b']).2.count_words =
      (((nodesList ((Trie.empty.insert ['a', 'b'] 2).remove ['a', 'b']).2.root).filter
        (fun m => m.is_end)).length : Int) :=
  reachable_pruning_and_counters _
    (Reachable.remove _ _ (Reachable.insert _ _ _ Reachable.empty))

/-- C4: for every reachable index state and every word, `remove` returns
true exactly when the word is currently stored; a false return leaves the
state untouched; after a true return the word is gone and an immediately
repeated `remove` returns false. -/
theorem remove_iff_contains_and_frame (t : Trie) (w : Word) (h : Reachable t) :
    ((t.remove w).1 = true ↔ t.contains w = true) ∧
    ((t.remove w).1 = false → t.remove w = (false, t)) ∧
    ((t.remove w).1 = true →
      (t.remove w).2.contains w = false ∧ ((t.remove w).2.remove w).1 = false) := by
  obtain ⟨hnd, _, _, _⟩ := reachable_trieInv t h
  have hfst : (t.remove w).1 = (removeAux t.root w).isSome := remove_fst t w
  have hiff : (t.remove w).1 = t.contains w := by
    rw [hfst, removeAux_isSome, contains_eq_isSome_score]
    rfl
  refine ⟨by rw [hiff], ?_, ?_⟩
  · intro hfalse
    rw [hfst] at hfalse
    unfold Trie.remove
    cases hr : removeAux t.root w with
    | none => rfl
    | some r => rw [hr] at hfalse; simp at hfalse
  · intro htrue
    rw [hfst] at htrue
    cases hr : removeAux t.root w with
    | none => rw [hr] at htrue; simp at htrue
    | some r =>
      obtain ⟨m, p⟩ := r
      have hroot : (t.remove w).2.root = m := by simp [Trie.remove, hr]
      have hscore : scoreN m w = none := by
        have := scoreN_removeAux w t.root m p hnd hr w
        simpa using this
      have hcon : (t.remove w).2.contains w = false := by
        rw [contains_eq_isSome_score]
        unfold Trie.score
        rw [hroot, hscore]
        rfl
      refine ⟨hcon, ?_⟩
      rw [remove_fst, removeAux_isSome]
      unfold Trie.score at *
      rw [hroot, hscore]
      rfl

/-- Witness for C4 at a concrete reachable state. -/
theorem remove_iff_contains_and_frame_witness :
    (((Trie.empty.insert ['a'] 1).remove ['a']).1 = true ↔
      (Trie.empty.insert ['a'] 1).contains ['a'] = true) ∧
    (((Trie.empty.insert ['a'] 1).remove ['a']).1 = false →
      (Trie.empty.insert ['a'] 1).remove ['a'] = (false, Trie.empty.insert ['a'] 1)) ∧
    (((Trie.empty.insert ['a'] 1).remove ['a']).1 = true →
      ((Trie.empty.insert ['a'] 1).remove ['a']).2.contains ['a'] = false ∧
      (((Trie.empty.insert ['a'] 1).remove ['a']).2.remove ['a']).1 = false) :=
  remove_iff_contains_and_frame _ _ (Reachable.insert _ _ _ Reachable.empty)

/-- C5: for every reachable index, `stats` reports a word count equal to
the length of `items()` and a height equal to the maximum symbol length of
any word listed by `items()`, or `0` when no word is stored. -/
theorem stats_consistency (t : Trie) (h : Reachable t) :
    t.stats.1 = (t.items.length : Int) ∧ t.stats.2.1 = maxLen t.items := by
  obtain ⟨hnd, hlv, hnc, hwc⟩ := reachable_trieInv t h
  constructor
  · show t.count_words = _
    rw [hwc]
    unfold Trie.items
    rw [itemsN_length]
  · show heightN t.root = _
    unfold Trie.items
    exact heightN_items t.root hlv

/-- Witness for C5 at a concrete reachable state. -/
theorem stats_consistency_witness :
    (Trie.empty.insert ['a', 'b'] 2).stats.1 =
      (((Trie.empty.insert ['a', 'b'] 2).items).length : Int) ∧
    (Trie.empty.insert ['a', 'b'] 2).stats.2.1 =
      maxLen ((Trie.empty.insert ['a', 'b'] 2).items) :=
  stats_consistency _ (Reachable.insert _ _ _ Reachable.empty)

/-- C6: re-inserting a stored word updates its stored score, leaves every
other stored word and score unchanged, and leaves both counters
unchanged. -/
theorem reinsert_updates_score_only (t : Trie) (w : Word) (f : ℚ)
    (h : t.contains w = true) :
    (t.insert w f).score w = some f ∧
    (∀ v, v ≠ w → (t.insert w f).score v = t.score v) ∧
    (t.insert w f).count_words = t.count_words ∧
    (t.insert w f).count_nodes = t.count_nodes := by
  have hroot : (t.insert w f).root = (insertAux t.root w f).1 := rfl
  obtain ⟨m, hw, he⟩ := contains_walk t w h
  obtain ⟨ha, hb⟩ := insertAux_counts_of_contains w t.root f m hw he
  refine ⟨?_, ?_, ?_, ?_⟩
  · show scoreN (t.insert w f).root w = some f
    rw [hroot, scoreN_insertAux]
    simp
  · intro v hv
    show scoreN (t.insert w f).root v = scoreN t.root v
    rw [hroot, scoreN_insertAux]
    simp [hv]
  · show t.count_words + ((insertAux t.root w f).2.2 : Int) = t.count_words
    rw [hb]
    simp
  · show t.count_nodes + ((insertAux t.root w f).2.1 : Int) = t.count_nodes
    rw [ha]
    simp

/-- Witness for C6 at a concrete state containing the word. -/
theorem reinsert_updates_score_only_witness :
    ((Trie.empty.insert ['a'] 1).insert ['a'] 2).score ['a'] = some 2 ∧
    (∀ v, v ≠ ['a'] →
      ((Trie.empty.insert ['a'] 1).insert ['a'] 2).score v =
        (Trie.empty.insert ['a'] 1).score v) ∧
    ((Trie.empty.insert ['a'] 1).insert ['a'] 2).count_words =
      (Trie.empty.insert ['a'] 1).count_words ∧
    ((Trie.empty.insert ['a'] 1).insert ['a'] 2).count_nodes =
      (Trie.empty.insert ['a'] 1).count_nodes :=
  reinsert_updates_score_only _ _ _ (by decide)

/-- C7: immediately after `insert(W, S)` on a reachable index, the word is
contained and `items()` lists exactly one pair for it, carrying score
`S`. -/
theorem insert_contains_items_unique (t : Trie) (w : Word) (f : ℚ)
    (h : Reachable t) :
    (t.insert w f).contains w = true ∧
    ((t.insert w f).items).countP (fun p => decide (p.1 = w)) = 1 ∧
    (w, f) ∈ (t.insert w f).items := by
  obtain ⟨hnd, _, _, _⟩ := reachable_trieInv t h
  have hroot : (t.insert w f).root = (insertAux t.root w f).1 := rfl
  have hscore : (t.insert w f).score w = some f := by
    show scoreN (t.insert w f).root w = some f
    rw [hroot, scoreN_insertAux]
    simp
  have hnd2 : nodupN (t.insert w f).root = true := by
    rw [hroot]; exact nodupN_insertAux w t.root f hnd
  refine ⟨?_, ?_, ?_⟩
  · rw [contains_eq_isSome_score, hscore]
    rfl
  · unfold Trie.items
    have := countP_itemsN w (t.insert w f).root [] hnd2
    simp only [List.nil_append] at this
    rw [this]
    have : scoreN (t.insert w f).root w = some f := hscore
    rw [this]
    rfl
  · unfold Trie.items
    have := scoreN_mem w (t.insert w f).root [] f hscore
    simpa using this

/-- Witness for C7 at a concrete reachable state. -/
theorem insert_contains_items_unique_witness :
    ((Trie.empty.insert ['b'] 7).insert ['a'] 3).contains ['a'] = true ∧
    (((Trie.empty.insert ['b'] 7).insert ['a'] 3).items).countP
      (fun p => decide (p.1 = ['a'])) = 1 ∧
    (['a'], (3 : ℚ)) ∈ ((Trie.empty.insert ['b'] 7).insert ['a'] 3).items :=
  insert_contains_items_unique _ _ _ (Reachable.insert _ _ _ Reachable.empty)

/-- C8: `complete(prefix, k)` returns the empty sequence, leaving the
index untouched, whenever `k ≤ 0` or no stored word extends the prefix
(the walk to the prefix node fails). -/
theorem complete_empty_on_nonpos_or_missing (t : Trie) (pre : Word) (k : Int)
    (h : k ≤ 0 ∨ walk t.root pre = none) :
    t.completeS pre k = ([], t) := by
  unfold Trie.completeS
  rcases h with hk | hw
  · rw [complete_nonpos t pre k hk]
  · rw [complete_missing_path t pre k hw]

/-- Witness for C8 at a concrete state with k = 0. -/
theorem complete_empty_on_nonpos_or_missing_witness :
    (Trie.empty.insert ['a'] 1).completeS ['a'] 0 = ([], Trie.empty.insert ['a'] 1) :=
  complete_empty_on_nonpos_or_missing _ _ _ (Or.inl (by decide))

/-- C9: `contains`, `complete`, `stats` and `items` are read-only: the
state they pass back is the state they were given. -/
theorem read_ops_pure (t : Trie) (w pre : Word) (k : Int) :
    (t.containsS w).2 = t ∧ (t.completeS pre k).2 = t ∧
    t.statsS.2 = t ∧ t.itemsS.2 = t :=
  ⟨rfl, rfl, rfl, rfl⟩

/-- C10: removing the empty word, when stored, returns true, clears the
root's terminal flag, resets its score to 0, decrements the word counter,
keeps the node counter and every other stored word and score unchanged,
and never prunes the root node itself. -/
theorem remove_empty_word_root (t : Trie) (h : t.contains [] = true) :
    (t.remove []).1 = true ∧
    (t.remove []).2.root = TrieNode.mk t.root.children false 0 ∧
    (t.remove []).2.count_words = t.count_words - 1 ∧
    (t.remove []).2.count_nodes = t.count_nodes ∧
    (∀ v, v ≠ [] → (t.remove []).2.score v = t.score v) := by
  obtain ⟨m, hw, he⟩ := contains_walk t [] h
  have hm : m = t.root := by simpa [walk] using hw.symm
  subst hm
  have hr : removeAux t.root [] = some (TrieNode.mk t.root.children false 0, 0) := by
    simp [removeAux, he]
  have h2 : t.remove [] =
      (true, ⟨TrieNode.mk t.root.children false 0, t.count_words - 1,
        t.count_nodes - (0 : Int)⟩) := by
    simp [Trie.remove, hr]
  rw [h2]
  refine ⟨rfl, rfl, rfl, by simp, ?_⟩
  intro v hv
  cases v with
  | nil => exact absurd rfl hv
  | cons d vs =>
    show scoreN (TrieNode.mk t.root.children false 0) (d :: vs) = scoreN t.root (d :: vs)
    rw [scoreN_cons, scoreN_cons]
    simp

/-- Witness for C10 at a concrete state storing the empty word. -/
theorem remove_empty_word_root_witness :
    ((Trie.empty.insert [] 5).remove []).1 = true ∧
    ((Trie.empty.insert [] 5).remove []).2.root =
      TrieNode.mk (Trie.empty.insert [] 5).root.children false 0 ∧
    ((Trie.empty.insert [] 5).remove []).2.count_words =
      (Trie.empty.insert [] 5).count_words - 1 ∧
    ((Trie.empty.insert [] 5).remove []).2.count_nodes =
      (Trie.empty.insert [] 5).count_nodes ∧
    (∀ v, v ≠ [] →
      ((Trie.empty.insert [] 5).remove []).2.score v = (Trie.empty.insert [] 5).score v) :=
  remove_empty_word_root _ (by decide)

/-- Scenario trie of the specification: cat 5.0, car 3.0, cart 3.0, dog 9.0. -/
def scenarioTrie : Trie :=
  (((Trie.empty.insert ['c', 'a', 't'] 5).insert ['c', 'a', 'r'] 3).insert
    ['c', 'a', 'r', 't'] 3).insert ['d', 'o', 'g'] 9

/-- C1: the claim that among candidates of equal score the lexicographically
larger word is evicted from the size-k pool first fails on the code: the
heap holds plain `(score, word)` pairs, so `heappushpop` discards the
lexicographically smaller word on a tie.  With words `a` and `b` both at
score 1 and k = 1, the code returns `[b]`, although `a` ranks above `b`
under score-descending-then-word-ascending order. -/
theorem complete_evicts_lex_smaller_on_tie :
    ((Trie.empty.insert ['a'] 1).insert ['b'] 1).complete [] 1 = [['b']] ∧
    wordLt ['a'] ['b'] = true := by
  constructor
  · simp only [Trie.empty, Trie.insert, insertAux, TrieNode.new, Trie.complete, walk]
    simp [explore, exploreList, heapStep, heapMin, pairLt, wordLt, insSort, insSorted, chLe,
      rankLe, getCh, setCh, TrieNode.children, TrieNode.is_end, TrieNode.freq]
  · decide

/-- C2: evaluation of the specification scenario on the code.  Inserting
cat 5.0, car 3.0, cart 3.0, dog 9.0 and asking `complete("ca", 2)` returns
`[cat, cart]`, not the claimed `[cat, car]`: at equal score 3.0 the heap
evicts the lexicographically smaller `car`.  Every other step of the
scenario behaves as claimed: `complete("", 1)` gives `[dog]`,
`remove("car")` returns true, the subsequent `complete("ca", 2)` gives
`[cat, cart]`, and `stats()` reports word count 3 and height 4. -/
theorem scenario_complete_remove_stats :
    scenarioTrie.complete ['c', 'a'] 2 = [['c', 'a', 't'], ['c', 'a', 'r', 't']] ∧
    scenarioTrie.complete [] 1 = [['d', 'o', 'g']] ∧
    (scenarioTrie.remove ['c', 'a', 'r']).1 = true ∧
    (scenarioTrie.remove ['c', 'a', 'r']).2.complete ['c', 'a'] 2 =
      [['c', 'a', 't'], ['c', 'a', 'r', 't']] ∧
    (scenarioTrie.remove ['c', 'a', 'r']).2.stats = (3, 4, 9) := by
  refine ⟨?_, ?_, ?_, ?_, ?_⟩
  · simp only [scenarioTrie, Trie.empty, Trie.insert, insertAux, TrieNode.new,
      Trie.complete, walk]
    simp [explore, exploreList, heapStep, heapMin, pairLt, wordLt, insSort, insSorted,
      chLe, rankLe, getCh, setCh, TrieNode.children, TrieNode.is_end, TrieNode.freq]
    norm_num
  · simp only [scenarioTrie, Trie.empty, Trie.insert, insertAux, TrieNode.new,
      Trie.complete, walk]
    simp [explore, exploreList, heapStep, heapMin, pairLt, wordLt, insSort, insSorted,
      chLe, rankLe, getCh, setCh, TrieNode.children, TrieNode.is_end, TrieNode.freq]
  · decide
  · simp only [scenarioTrie, Trie.empty, Trie.insert, insertAux, TrieNode.new,
      Trie.remove, removeAux, Trie.complete, walk]
    simp [explore, exploreList, heapStep, heapMin, pairLt, wordLt, insSort, insSorted,
      chLe, rankLe, getCh, setCh, delCh, TrieNode.children, TrieNode.is_end, TrieNode.freq]
    norm_num
  · decide
